import Mathlib

/-!
Shallow embedding of the `chug` crate (src/lib.rs): a leaky bucket of
timestamps and an ETA estimator built on top of it.

Modelling conventions:
* `std::time::Instant` values are modelled as absolute times in whole
  milliseconds (`Nat`).  `now.duration_since(last).as_millis()` is then
  `now - last` on `Nat`; truncated subtraction coincides with Rust's
  saturating `Instant::duration_since` when `last` is later than `now`.
* `usize` arithmetic is modelled on `Nat`.  The crate's documented domain
  treats integer overflow as an accepted out-of-scope edge case, and no
  claim concerns wrap-around, so no `% 2^64` reduction is applied.
* `Vec::remove(0)` panics on an empty vector; a panicking operation is
  modelled by returning `none`, hence `insert` and `tick` return `Option`.
* `tick()` reads `Instant::now()`; the model takes the observed time as an
  explicit argument, so a run of the program is a list of tick times.
-/

set_option autoImplicit false

/-- The `LeakyBucket` struct: an ordered list of timestamps (oldest first)
and the fixed capacity `max`. -/
structure LeakyBucket where
  last_n : List Nat
  max : Nat
deriving Repr, DecidableEq

/-- `LeakyBucket::new(max)`: an empty bucket of capacity `max`. -/
def LeakyBucket.new (max : Nat) : LeakyBucket :=
  LeakyBucket.mk [] max

/-- `LeakyBucket::insert(now)`: if the bucket is at capacity, remove the
oldest element (`Vec::remove(0)`, which panics — `none` — when the vector is
empty, i.e. when `max = 0`), then push `now` at the back. -/
def LeakyBucket.insert (b : LeakyBucket) (now : Nat) : Option LeakyBucket :=
  if b.last_n.length = b.max then
    match b.last_n with
    | [] => none
    | _ :: rest => some (LeakyBucket.mk (rest ++ [now]) b.max)
  else
    some (LeakyBucket.mk (b.last_n ++ [now]) b.max)

/-- `LeakyBucket::len()`: number of items currently held. -/
def LeakyBucket.len (b : LeakyBucket) : Nat :=
  b.last_n.length

/-- `LeakyBucket::items()`: the ordered (oldest-first) view of the items. -/
def LeakyBucket.items (b : LeakyBucket) : List Nat :=
  b.last_n

/-- Folding `insert` over a list of timestamps, oldest first; `none` as soon
as one insert panics. -/
def LeakyBucket.insertAll (b : LeakyBucket) : List Nat → Option LeakyBucket
  | [] => some b
  | t :: ts =>
    match b.insert t with
    | none => none
    | some b2 => b2.insertAll ts

/-- The `Chug` struct: the bucket plus the work counters. -/
structure Chug where
  bucket : LeakyBucket
  current_work : Nat
  total_work : Nat
deriving Repr, DecidableEq

/-- `Chug::new(max, total_work)`. -/
def Chug.new (max total_work : Nat) : Chug :=
  Chug.mk (LeakyBucket.new max) 0 total_work

/-- `Chug::tick()`: increment `current_work` and insert the observed time
`now` into the bucket; `none` when the insert panics. -/
def Chug.tick (c : Chug) (now : Nat) : Option Chug :=
  match c.bucket.insert now with
  | none => none
  | some b => some (Chug.mk b (c.current_work + 1) c.total_work)

/-- A sequence of `tick()` calls observing the given times in order. -/
def Chug.ticks (c : Chug) : List Nat → Option Chug
  | [] => some c
  | t :: ts =>
    match c.tick t with
    | none => none
    | some c2 => c2.ticks ts

/-- The summing loop inside `Chug::eta`: walk the items front to back,
adding `now.duration_since(last).as_millis()` for each consecutive pair,
threading the running sum and the previous element. -/
def sumLoop : Nat → Option Nat → List Nat → Nat
  | sum, _, [] => sum
  | sum, none, now :: rest => sumLoop sum (some now) rest
  | sum, some last, now :: rest => sumLoop (sum + (now - last)) (some now) rest

/-- The `average_between` block of `Chug::eta`: the summed consecutive
differences divided (truncating) by the bucket length. -/
def Chug.average_between (c : Chug) : Nat :=
  sumLoop 0 none c.bucket.items / c.bucket.len

/-- `Chug::eta()`: `none` for fewer than two timestamps, on overrun
(`current_work > total_work`) and on `remaining = 0`; otherwise the mean
interval times the remaining work, in whole milliseconds. -/
def Chug.eta (c : Chug) : Option Nat :=
  if c.bucket.len < 2 then
    none
  else
    let average_between := c.average_between
    if c.current_work > c.total_work then
      none
    else
      let remaining := c.total_work - c.current_work
      if remaining = 0 then
        none
      else
        some (average_between * remaining)

/-- Specification form of the summing loop: the sum of the differences of
all consecutive pairs of the list, oldest to newest. -/
def pairwiseDiffSum (l : List Nat) : Nat :=
  (List.zipWith (fun a b => b - a) l l.tail).sum

/-- The two operations a caller can perform on a `Chug` value. -/
inductive Op where
  | tick : Nat → Op
  | eta : Op
deriving Repr, DecidableEq

/-- One API call: `tick` mutates the state (and returns no value), `eta`
returns the estimate.  `none` models a panic. -/
def Chug.run (c : Chug) : Op → Option (Chug × Option Nat)
  | Op.tick now =>
    match c.tick now with
    | none => none
    | some c2 => some (c2, none)
  | Op.eta => some (c, c.eta)

/-- A sequence of API calls, collecting the values `eta` returned. -/
def Chug.runAll (c : Chug) : List Op → Option (Chug × List (Option Nat))
  | [] => some (c, [])
  | op :: ops =>
    match c.run op with
    | none => none
    | some (c2, out) =>
      match c2.runAll ops with
      | none => none
      | some (c3, outs) => some (c3, out :: outs)

/-- The summing loop, once primed with a previous element `a`, adds the sum
of consecutive differences of `a :: l` to the accumulator. -/
theorem sumLoop_some (l : List Nat) : ∀ s a : Nat,
    sumLoop s (some a) l = s + pairwiseDiffSum (a :: l) := by
  induction l with
  | nil =>
    intro s a
    simp [sumLoop, pairwiseDiffSum]
  | cons b l ih =>
    intro s a
    have hd : pairwiseDiffSum (a :: b :: l) = (b - a) + pairwiseDiffSum (b :: l) := by
      simp [pairwiseDiffSum, List.zipWith]
    rw [sumLoop, ih, hd, Nat.add_assoc]

/-- The summing loop started empty computes the pairwise-difference sum. -/
theorem sumLoop_eq_pairwiseDiffSum (l : List Nat) :
    sumLoop 0 none l = pairwiseDiffSum l := by
  cases l with
  | nil => rfl
  | cons a l =>
    rw [sumLoop, sumLoop_some]
    simp

/-- A successful insert into a bucket respecting its capacity yields a
bucket respecting its capacity, with the same capacity. -/
theorem insert_isSome_of_le (b : LeakyBucket) (now : Nat)
    (hmax : 1 ≤ b.max) (hlen : b.last_n.length ≤ b.max) :
    ∃ b2, b.insert now = some b2 ∧ b2.max = b.max ∧
      b2.last_n.length ≤ b2.max := by
  unfold LeakyBucket.insert
  by_cases hc : b.last_n.length = b.max
  · cases hl : b.last_n with
    | nil =>
      rw [hl] at hc
      simp at hc
      omega
    | cons a rest =>
      rw [hl] at hc
      refine ⟨LeakyBucket.mk (rest ++ [now]) b.max, ?_, rfl, ?_⟩
      · rw [if_pos hc]
      · simp at hc ⊢
        omega
  · refine ⟨LeakyBucket.mk (b.last_n ++ [now]) b.max, ?_, rfl, ?_⟩
    · rw [if_neg hc]
    · simp
      omega

/-- Dropping equal counts from equal lists gives equal lists. -/
theorem drop_eq_drop (i j : Nat) (l1 l2 : List Nat) (hij : i = j) (hl : l1 = l2) :
    l1.drop i = l2.drop j := by
  rw [hij, hl]

/-- Characterisation of a successful run of inserts: the bucket keeps its
capacity and holds exactly the suffix of all timestamps seen (previous
contents included) that fits in the capacity, oldest first. -/
theorem insertAll_eq_drop (ts : List Nat) : ∀ b b2 : LeakyBucket,
    b.last_n.length ≤ b.max → b.insertAll ts = some b2 →
    b2.max = b.max ∧
      b2.last_n = (b.last_n ++ ts).drop (b.last_n.length + ts.length - b.max) := by
  induction ts with
  | nil =>
    intro b b2 hlen h
    rw [LeakyBucket.insertAll] at h
    cases h
    constructor
    · rfl
    · have hz : b.last_n.length - b.max = 0 := by omega
      simp [hz]
  | cons t ts ih =>
    intro b b2 hlen h
    rw [LeakyBucket.insertAll] at h
    by_cases hc : b.last_n.length = b.max
    · cases hl : b.last_n with
      | nil =>
        rw [LeakyBucket.insert, if_pos hc, hl] at h
        simp at h
      | cons a rest =>
        rw [LeakyBucket.insert, if_pos hc, hl] at h
        simp only at h
        have hlen2 : (LeakyBucket.mk (rest ++ [t]) b.max).last_n.length
            ≤ (LeakyBucket.mk (rest ++ [t]) b.max).max := by
          rw [hl] at hc
          simp at hc ⊢
          omega
        obtain ⟨hmax2, hval⟩ := ih _ _ hlen2 h
        refine ⟨hmax2, ?_⟩
        rw [hval]
        rw [hl] at hc
        simp only [List.length_cons] at hc
        have hK : (a :: rest).length + (t :: ts).length - b.max = ts.length + 1 := by
          simp only [List.length_cons]
          omega
        rw [hK, List.cons_append, List.drop_succ_cons]
        refine drop_eq_drop _ _ _ _ ?_ ?_
        · simp
          omega
        · simp
    · rw [LeakyBucket.insert, if_neg hc] at h
      simp only at h
      have hlen2 : (LeakyBucket.mk (b.last_n ++ [t]) b.max).last_n.length
          ≤ (LeakyBucket.mk (b.last_n ++ [t]) b.max).max := by
        simp
        omega
      obtain ⟨hmax2, hval⟩ := ih _ _ hlen2 h
      refine ⟨hmax2, ?_⟩
      rw [hval]
      refine drop_eq_drop _ _ _ _ ?_ ?_
      · simp
        omega
      · simp

/-- A run of inserts never panics when the capacity is at least one. -/
theorem insertAll_isSome (ts : List Nat) : ∀ b : LeakyBucket,
    1 ≤ b.max → b.last_n.length ≤ b.max →
    ∃ b2, b.insertAll ts = some b2 := by
  induction ts with
  | nil =>
    intro b _ _
    exact ⟨b, rfl⟩
  | cons t ts ih =>
    intro b hmax hlen
    obtain ⟨b2, hins, hmax2, hlen2⟩ := insert_isSome_of_le b t hmax hlen
    obtain ⟨b3, h3⟩ := ih b2 (hmax2 ▸ hmax) hlen2
    refine ⟨b3, ?_⟩
    rw [LeakyBucket.insertAll, hins]
    exact h3

/-- A successful tick sequence acts on the bucket exactly as the
corresponding insert sequence. -/
theorem ticks_bucket (ts : List Nat) : ∀ c c2 : Chug,
    c.ticks ts = some c2 → c.bucket.insertAll ts = some c2.bucket := by
  induction ts with
  | nil =>
    intro c c2 h
    rw [Chug.ticks] at h
    cases h
    rfl
  | cons t ts ih =>
    intro c c2 h
    rw [Chug.ticks] at h
    rw [LeakyBucket.insertAll]
    cases hins : c.bucket.insert t with
    | none =>
      rw [Chug.tick, hins] at h
      simp at h
    | some b =>
      rw [Chug.tick, hins] at h
      simp only at h
      exact ih _ _ h

/-- Insert never panics when the capacity is at least one. -/
theorem insert_isSome_of_pos (b : LeakyBucket) (now : Nat) (hmax : 1 ≤ b.max) :
    (b.insert now).isSome = true := by
  unfold LeakyBucket.insert
  by_cases hc : b.last_n.length = b.max
  · cases hl : b.last_n with
    | nil =>
      rw [hl] at hc
      simp at hc
      omega
    | cons a rest =>
      rw [hl] at hc
      rw [if_pos hc]
      rfl
  · rw [if_neg hc]
    rfl

/-- A successful insert grows the item list by at most one element. -/
theorem insert_length (b b2 : LeakyBucket) (now : Nat) (h : b.insert now = some b2) :
    b2.last_n.length ≤ b.last_n.length + 1 := by
  rw [LeakyBucket.insert] at h
  by_cases hc : b.last_n.length = b.max
  · rw [if_pos hc] at h
    cases hl : b.last_n with
    | nil =>
      rw [hl] at h
      simp at h
    | cons a rest =>
      rw [hl] at h
      simp only at h
      cases h
      simp [hl]
  · rw [if_neg hc] at h
    cases h
    simp

/-- A successful tick sequence adds one unit of work per tick and keeps
the total unchanged. -/
theorem ticks_current_work (ts : List Nat) : ∀ c c2 : Chug,
    c.ticks ts = some c2 →
    c2.current_work = c.current_work + ts.length ∧
      c2.total_work = c.total_work := by
  induction ts with
  | nil =>
    intro c c2 h
    rw [Chug.ticks] at h
    cases h
    exact ⟨rfl, rfl⟩
  | cons t ts ih =>
    intro c c2 h
    rw [Chug.ticks] at h
    cases hins : c.bucket.insert t with
    | none =>
      rw [Chug.tick, hins] at h
      simp at h
    | some b =>
      rw [Chug.tick, hins] at h
      simp only at h
      obtain ⟨h1, h2⟩ := ih _ _ h
      constructor
      · rw [h1]
        simp
        omega
      · rw [h2]

/-- C1 counterexample: on a window of capacity 0, the very first tick (and
its underlying insert) panics — `Vec::remove(0)` on an empty vector — so it
does not succeed as the claim states. -/
theorem chug_C1_counterexample : (Chug.new 0 100).tick 0 = none := by decide

/-- C1 (amended): insert and tick are total for every window capacity of at
least 1, but with capacity 0 every insert panics (modelled as `none`), so a
capacity-0 estimator returns no estimate only in its initial state — it
cannot absorb a tick at all. -/
theorem chug_C1_amended (b : LeakyBucket) (c : Chug) (now x t : Nat) :
    (1 ≤ b.max → (b.insert now).isSome = true) ∧
    (1 ≤ c.bucket.max → (c.tick now).isSome = true) ∧
    (LeakyBucket.new 0).insert x = none ∧
    (Chug.new 0 t).eta = none := by
  refine ⟨fun h => insert_isSome_of_pos b now h, fun h => ?_, rfl, rfl⟩
  have h2 := insert_isSome_of_pos c.bucket now h
  cases hins : c.bucket.insert now with
  | none =>
    rw [hins] at h2
    simp at h2
  | some b2 =>
    rw [Chug.tick, hins]
    rfl

/-- C1 amended witness at capacity 1: both insert and tick succeed. -/
theorem chug_C1_amended_witness :
    ((LeakyBucket.mk [1] 1).insert 2).isSome = true ∧
    ((Chug.new 1 5).tick 2).isSome = true :=
  ⟨(chug_C1_amended (LeakyBucket.mk [1] 1) (Chug.new 1 5) 2 0 3).1 (by decide),
   (chug_C1_amended (LeakyBucket.mk [1] 1) (Chug.new 1 5) 2 0 3).2.1 (by decide)⟩

/-- C2: whenever eta() produces an estimate, its value is the sum of the
consecutive millisecond differences over the window, divided (truncating)
by the number of timestamps `len` — not by `len - 1` — and multiplied by
the remaining work. -/
theorem chug_C2_mean_divided_by_len (c : Chug) (h : (c.eta).isSome = true) :
    c.eta = some ((pairwiseDiffSum c.bucket.items / c.bucket.len)
      * (c.total_work - c.current_work)) := by
  simp only [Chug.eta] at h ⊢
  split_ifs at h ⊢
  all_goals try simp at h
  rw [Chug.average_between, sumLoop_eq_pairwiseDiffSum]

/-- C2 witness: a concrete window [0ms, 10ms] with 2 of 4 units done. -/
theorem chug_C2_witness :
    (Chug.mk (LeakyBucket.mk [0, 10] 2) 2 4).eta
      = some ((pairwiseDiffSum [0, 10] / 2) * (4 - 2)) :=
  chug_C2_mean_divided_by_len (Chug.mk (LeakyBucket.mk [0, 10] 2) 2 4) (by decide)

/-- C4: with fewer than two timestamps in the window, eta() is `none`; in
particular a fresh estimator, and an estimator after a single successful
tick, give `none` for every window capacity and every total. -/
theorem chug_C4_insufficient_data (c : Chug) (m t now : Nat) :
    (c.bucket.len < 2 → c.eta = none) ∧
    (Chug.new m t).eta = none ∧
    (∀ c2, (Chug.new m t).tick now = some c2 → c2.eta = none) := by
  have hbase : ∀ d : Chug, d.bucket.len < 2 → d.eta = none := by
    intro d hd
    simp only [Chug.eta]
    rw [if_pos hd]
  refine ⟨hbase c, hbase _ (by show (0:Nat) < 2; omega), ?_⟩
  intro c2 h
  cases hins : (Chug.new m t).bucket.insert now with
  | none =>
    rw [Chug.tick, hins] at h
    simp at h
  | some b2 =>
    rw [Chug.tick, hins] at h
    simp only at h
    cases h
    apply hbase
    have hlen := insert_length _ _ now hins
    simp [Chug.new, LeakyBucket.new] at hlen
    show b2.last_n.length < 2
    omega

/-- C4 witness: `new(10, 100)` gives none, and so does one tick later. -/
theorem chug_C4_witness :
    (Chug.new 10 100).eta = none ∧
    (Chug.mk (LeakyBucket.mk [7] 10) 1 100).eta = none :=
  ⟨(chug_C4_insufficient_data (Chug.new 10 100) 10 100 7).2.1,
   (chug_C4_insufficient_data (Chug.new 10 100) 10 100 7).2.2
     (Chug.mk (LeakyBucket.mk [7] 10) 1 100) (by decide)⟩

/-- C5: once `current_work` exceeds `total_work`, eta() is `none`. -/
theorem chug_C5_overrun_none (c : Chug) (h : c.total_work < c.current_work) :
    c.eta = none := by
  simp only [Chug.eta]
  split_ifs <;> rfl

/-- C5 witness: 5 of 3 units done. -/
theorem chug_C5_witness : (Chug.mk (LeakyBucket.mk [0, 1] 2) 5 3).eta = none :=
  chug_C5_overrun_none (Chug.mk (LeakyBucket.mk [0, 1] 2) 5 3) (by decide)

/-- C6: when the work is exactly complete (`current_work = total_work`,
hence `remaining = 0`), eta() is `none`, not a zero duration. -/
theorem chug_C6_complete_none (c : Chug) (h : c.current_work = c.total_work) :
    c.eta = none := by
  simp only [Chug.eta]
  split_ifs <;> first | rfl | omega

/-- C6 witness: 3 of 3 units done. -/
theorem chug_C6_witness : (Chug.mk (LeakyBucket.mk [0, 1] 2) 3 3).eta = none :=
  chug_C6_complete_none (Chug.mk (LeakyBucket.mk [0, 1] 2) 3 3) (by decide)

/-- C7: with at least two timestamps, no overrun, and positive remaining
work, eta() is exactly the truncated mean interval times the remaining
work, in whole milliseconds. -/
theorem chug_C7_estimate (c : Chug) (h2 : 2 ≤ c.bucket.len)
    (hle : c.current_work ≤ c.total_work)
    (hrem : 0 < c.total_work - c.current_work) :
    c.eta = some (c.average_between * (c.total_work - c.current_work)) := by
  simp only [Chug.eta]
  split_ifs <;> first | rfl | omega

/-- C7 witness: window [0ms, 2ms, 4ms], 1 of 5 units done. -/
theorem chug_C7_witness :
    (Chug.mk (LeakyBucket.mk [0, 2, 4] 3) 1 5).eta
      = some ((Chug.mk (LeakyBucket.mk [0, 2, 4] 3) 1 5).average_between * (5 - 1)) :=
  chug_C7_estimate (Chug.mk (LeakyBucket.mk [0, 2, 4] 3) 1 5)
    (by decide) (by decide) (by decide)

/-- C3: a successful run of inserts leaves the window holding exactly the
most recent at-most-`c` timestamps in insertion order (length never exceeds
`c`; oldest-first order; a full window evicts exactly the oldest element),
and for `c ≥ 1` every run succeeds; in particular inserting exactly `c`
timestamps yields length `c` and one more still yields length `c`. -/
theorem chug_C3_window_invariants (c : Nat) (ts : List Nat) :
    (∀ b, (LeakyBucket.new c).insertAll ts = some b →
      b.max = c ∧ b.last_n = ts.drop (ts.length - c) ∧ b.len ≤ c ∧
      (ts.length = c → b.len = c) ∧ (ts.length = c + 1 → b.len = c)) ∧
    (1 ≤ c → (LeakyBucket.new c).insertAll ts
      = some (LeakyBucket.mk (ts.drop (ts.length - c)) c)) := by
  have hchar : ∀ b, (LeakyBucket.new c).insertAll ts = some b →
      b.max = c ∧ b.last_n = ts.drop (ts.length - c) := by
    intro b hb
    have h := insertAll_eq_drop ts (LeakyBucket.new c) b
      (by simp [LeakyBucket.new]) hb
    refine ⟨h.1, ?_⟩
    have h2 := h.2
    simpa [LeakyBucket.new] using h2
  constructor
  · intro b hb
    obtain ⟨h1, h2⟩ := hchar b hb
    have hlen : b.len = ts.length - (ts.length - c) := by
      rw [LeakyBucket.len, h2, List.length_drop]
    refine ⟨h1, h2, by omega, fun hl => by omega, fun hl => by omega⟩
  · intro hc1
    obtain ⟨b, hb⟩ := insertAll_isSome ts (LeakyBucket.new c) hc1
      (by simp [LeakyBucket.new])
    obtain ⟨h1, h2⟩ := hchar b hb
    rw [hb]
    cases b with
    | mk l m =>
      rw [show l = ts.drop (ts.length - c) from h2, show m = c from h1]

/-- C3 witness: capacity 2, inserting [5, 7, 9] keeps the newest two. -/
theorem chug_C3_witness :
    (LeakyBucket.new 2).insertAll [5, 7, 9]
      = some (LeakyBucket.mk ([5, 7, 9].drop ([5, 7, 9].length - 2)) 2) ∧
    LeakyBucket.len (LeakyBucket.mk ([5, 7, 9].drop ([5, 7, 9].length - 2)) 2) ≤ 2 :=
  ⟨(chug_C3_window_invariants 2 [5, 7, 9]).2 (by decide),
   ((chug_C3_window_invariants 2 [5, 7, 9]).1 _
     ((chug_C3_window_invariants 2 [5, 7, 9]).2 (by decide))).2.2.1⟩

/-- C8: `current_work` starts at 0; a successful tick inserts the observed
time into the bucket and increments `current_work` by exactly one, leaving
`total_work` unchanged; across any successful tick sequence `current_work`
never decreases. -/
theorem chug_C8_tick_increments (c : Chug) (now m t : Nat) (ts : List Nat) :
    (Chug.new m t).current_work = 0 ∧
    (∀ c2, c.tick now = some c2 →
      c2.current_work = c.current_work + 1 ∧ c2.total_work = c.total_work ∧
      c.bucket.insert now = some c2.bucket) ∧
    (∀ c2, c.ticks ts = some c2 → c.current_work ≤ c2.current_work) := by
  refine ⟨rfl, ?_, ?_⟩
  · intro c2 h
    cases hins : c.bucket.insert now with
    | none =>
      rw [Chug.tick, hins] at h
      simp at h
    | some b2 =>
      rw [Chug.tick, hins] at h
      simp only at h
      cases h
      exact ⟨rfl, rfl, rfl⟩
  · intro c2 h
    obtain ⟨h1, h2⟩ := ticks_current_work ts c c2 h
    omega

/-- C8 witness: one tick on `new(2, 5)` observing time 7. -/
theorem chug_C8_witness :
    (Chug.new 2 5).current_work = 0 ∧
    (Chug.mk (LeakyBucket.mk [7] 2) 1 5).current_work
      = (Chug.new 2 5).current_work + 1 ∧
    (Chug.new 2 5).current_work ≤ (Chug.mk (LeakyBucket.mk [7] 2) 1 5).current_work :=
  ⟨(chug_C8_tick_increments (Chug.new 2 5) 7 2 5 [7]).1,
   ((chug_C8_tick_increments (Chug.new 2 5) 7 2 5 [7]).2.1
     (Chug.mk (LeakyBucket.mk [7] 2) 1 5) (by decide)).1,
   (chug_C8_tick_increments (Chug.new 2 5) 7 2 5 [7]).2.2
     (Chug.mk (LeakyBucket.mk [7] 2) 1 5) (by decide)⟩

/-- C9: eta() neither mutates the estimator nor varies between calls: any
number of consecutive eta() calls leaves the state unchanged and returns
the same value every time. -/
theorem chug_C9_eta_readonly (c : Chug) (n : Nat) :
    c.runAll (List.replicate n Op.eta) = some (c, List.replicate n c.eta) := by
  induction n with
  | zero => rfl
  | succ k ih =>
    rw [List.replicate_succ]
    simp only [Chug.runAll, Chug.run]
    rw [ih]
    rfl

/-- C10: with window capacity 1, after every successful tick sequence the
window holds at most one timestamp, so eta() is `none` forever. -/
theorem chug_C10_capacity_one (t : Nat) (ts : List Nat) (c2 : Chug)
    (h : (Chug.new 1 t).ticks ts = some c2) : c2.eta = none := by
  have hb := ticks_bucket ts (Chug.new 1 t) c2 h
  have hchar := insertAll_eq_drop ts (Chug.new 1 t).bucket c2.bucket
    (by simp [Chug.new, LeakyBucket.new]) hb
  have hlen : c2.bucket.len < 2 := by
    have h0 : ((Chug.new 1 t).bucket.last_n ++ ts).length = ts.length := by
      simp [Chug.new, LeakyBucket.new]
    rw [LeakyBucket.len, hchar.2, List.length_drop, h0]
    have h1 : (Chug.new 1 t).bucket.last_n.length = 0 := by
      simp [Chug.new, LeakyBucket.new]
    rw [h1]
    show ts.length - (0 + ts.length - 1) < 2
    omega
  simp only [Chug.eta]
  rw [if_pos hlen]

/-- C10 witness: capacity 1, three ticks, still no estimate. -/
theorem chug_C10_witness : (Chug.mk (LeakyBucket.mk [3] 1) 3 5).eta = none :=
  chug_C10_capacity_one 5 [1, 2, 3] (Chug.mk (LeakyBucket.mk [3] 1) 3 5) (by decide)
